import Mathlib

/-!
Shallow embedding of the Mini-Cloud "Hot-Plug Heaven" CPU-core broker:
the controller's allocation ledger and scheduler (`src/host/controller/
controller_multi.py`) and the agent-side executor (`src/vm/agent_instance.py`).

Python dictionaries are modelled as insertion-ordered association lists
(Python 3.7+ dicts preserve insertion order; keys are unique).  Network
calls made by the controller (agent `/status`, `/allocate`, `/release`)
are modelled by a deterministic environment record: the controller's own
state transitions are a pure function of the current state and that
environment, exactly mirroring the source's control flow.
-/

namespace HotPlug

/-! ### Python-dict operations on association lists -/

/-- `d.get(k)`: value of the first entry with key `k`, if any. -/
def dget {α β : Type} [DecidableEq α] : List (α × β) → α → Option β
  | [], _ => none
  | (k', v) :: rest, k => if k' = k then some v else dget rest k

/-- `d[k] = v`: replace the value at `k` in place (keys keep their
position), appending a new entry when `k` is absent. -/
def dset {α β : Type} [DecidableEq α] : List (α × β) → α → β → List (α × β)
  | [], k, v => [(k, v)]
  | (k', v') :: rest, k, v =>
      if k' = k then (k', v) :: rest else (k', v') :: dset rest k v

/-- `d.setdefault(k, v)`: insert `(k, v)` only when `k` is absent. -/
def dsetdefault {α β : Type} [DecidableEq α] (m : List (α × β)) (k : α) (v : β) :
    List (α × β) :=
  if (dget m k).isSome then m else m ++ [(k, v)]

/-- `d.pop(k, None)`: drop the entry with key `k` (dict keys are unique,
so removing every entry with that key coincides with removing the one). -/
def dpop {α β : Type} [DecidableEq α] (m : List (α × β)) (k : α) : List (α × β) :=
  m.filter (fun p => p.1 ≠ k)

/-- `list.remove(x)`: remove the first element equal to `x`. -/
def removeFirst {α : Type} [DecidableEq α] : List α → α → List α
  | [], _ => []
  | x :: xs, a => if x = a then xs else x :: removeFirst xs a

/-- `range(offset, offset+total)` over Python ints (empty when `total ≤ 0`). -/
def intRange (offset total : ℤ) : List ℤ :=
  (List.range total.toNat).map (fun i : ℕ => offset + (i : ℤ))

/-- Python's `l[:n]` slice: for negative `n` it keeps all but the last
`|n|` elements. -/
def pyTake {α : Type} (n : ℤ) (l : List α) : List α :=
  if 0 ≤ n then l.take n.toNat else l.take ((l.length : ℤ) + n).toNat

/-! ### The used-core estimator (`estimate_used_cores`) -/

/-- Python 3 `round`: round half to even (banker's rounding), computed
on the reduced numerator and denominator so that it evaluates inside the
kernel.  `Int.fdiv q.num q.den` is `⌊q⌋` and `rem2 / (2 * q.den)` is the
fractional part, so the three branches are fraction `< 1/2`, `> 1/2`,
and the `= 1/2` tie broken toward the even neighbour. -/
def pyRound (q : ℚ) : ℤ :=
  let f := Int.fdiv q.num (q.den : ℤ)
  let rem2 := 2 * (q.num - f * (q.den : ℤ))
  if rem2 < (q.den : ℤ) then f
  else if (q.den : ℤ) < rem2 then f + 1
  else if Even f then f else f + 1

/-- The exact rational `(cpu_percent/100.0) * allocated`, built with
`Rat.divInt` (ordinary `ℚ` division is definitionally opaque to the
kernel; `cpuFrac_eq` proves this is that quotient). -/
def cpuFrac (cpu_percent : ℚ) (allocated : ℤ) : ℚ :=
  Rat.divInt (cpu_percent.num * allocated) ((cpu_percent.den : ℤ) * 100)

/-- `estimate_used_cores(cpu_percent, allocated)`:
`est = max(1, int(round((cpu_percent/100.0)*allocated))); return min(est, allocated)`. -/
def estimate_used_cores (cpu_percent : ℚ) (allocated : ℤ) : ℤ :=
  min (max 1 (pyRound (cpuFrac cpu_percent allocated))) allocated

/-! ### Controller state (`AGENTS`, `CORE_MAP`, `ALLOCATIONS`, `JOB_REQUEST`, `PENDING`) -/

/-- One `AGENTS` entry: `{total_cores, endpoint, offset}` (the `last`
heartbeat timestamp is wall-clock only and carries no ledger meaning). -/
structure AgentInfo where
  total_cores : ℤ
  endpoint : Option String
  offset : ℤ
deriving Repr, DecidableEq

/-- One `PENDING` entry: `{vm, job, pid, need}` (the `ts` field is
wall-clock only). -/
structure PendingReq where
  vm : String
  job : String
  pid : ℤ
  need : ℤ
deriving Repr, DecidableEq

/-- The controller's ledger.  `core_map` values: `none` = Free,
`some (a, j)` = Bound to job `j` of agent `a`. -/
structure CState where
  agents : List (String × AgentInfo)
  core_map : List (ℤ × Option (String × String))
  allocations : List ((String × String) × List ℤ)
  job_request : List ((String × String) × ℤ)
  pending : List PendingReq
deriving Repr, DecidableEq

/-- The empty controller state at process start. -/
def initState : CState := ⟨[], [], [], [], []⟩

/-- `CORE_MAP.get(g) is None` in the source treats an absent key and a
stored `None` alike: the effective binding of global index `g`. -/
def cmLookup (s : CState) (g : ℤ) : Option (String × String) :=
  (dget s.core_map g).getD none

/-- Configured floor: `MIN_CORES_PER_JOB = 1`. -/
def MIN_CORES_PER_JOB : ℤ := 1

/-- Configured reserve: `RESERVE_BUFFER = 0`. -/
def RESERVE_BUFFER : ℤ := 0

/-- `/register` endpoint.  The JSON fields are optional:
`total = int(data.get("total_cores", 1))`, `offset = int(data.get("core_offset", 0))`,
`endpoint = data.get("endpoint")`; the handler then overwrites
`AGENTS[agent]` wholesale and seeds each index of the new range into
`CORE_MAP` with `setdefault` (never disturbing bound slots). -/
def register (s : CState) (vm_name : String) (endpoint : Option String)
    (total_cores core_offset : Option ℤ) : CState :=
  let total := total_cores.getD 1
  let offset := core_offset.getD 0
  { s with
    agents := dset s.agents vm_name ⟨total, endpoint, offset⟩,
    core_map := (intRange offset total).foldl
      (fun m g => dsetdefault m g none) s.core_map }

/-- `/request` endpoint (`request_alloc`): reject (`false`, state
untouched) when the agent is unknown; otherwise append one pending
request and record the originally requested core count. -/
def request_alloc (s : CState) (vm job : String) (pid need : ℤ) :
    CState × Bool :=
  if (dget s.agents vm).isSome then
    ({ s with
        pending := s.pending ++ [⟨vm, job, pid, need⟩],
        job_request := dset s.job_request (vm, job) need }, true)
  else (s, false)

/-- `/complete` endpoint.  `releaseOk` is the outcome of the outbound
`/release` call to the agent; the source wraps that call in
`try/except: pass`, so the outcome cannot influence anything.  Returns
`some freed` on success, `none` for the `NotAllocated` failure. -/
def complete (_releaseOk : Bool) (s : CState) (vm job : String) :
    CState × Option (List ℤ) :=
  match dget s.allocations (vm, job) with
  | none => (s, none)
  | some cores =>
      ({ s with
          allocations := dpop s.allocations (vm, job),
          core_map := cores.foldl (fun m c => dset m c none) s.core_map,
          job_request := dpop s.job_request (vm, job) }, some cores)

/-! ### Scheduler (`scheduler_loop` body, one pass) -/

/-- One row of an agent's `/status` response. -/
structure JobStatus where
  job : String
  pid : ℤ
  cores : List ℤ
  cpu_percent : ℚ

/-- Deterministic environment for the outbound network calls made during
one scheduling pass: `status a` is agent `a`'s `/status` response
(`none` = the call raises, e.g. agent unreachable), `allocOk` is whether
the `/allocate` call to the named agent returns HTTP 200 with `ok: true`,
and `releaseRaises` is whether the steal-phase `/release` call raises. -/
structure Env where
  status : String → Option (List JobStatus)
  allocOk : String → String → ℤ → List ℤ → Bool
  releaseRaises : String → String → Bool

/-- `_assign_and_record(agent, job, pid, cores)`: on a successful
`/allocate` call, bind every core to `(agent, job)` in `CORE_MAP`, extend
`ALLOCATIONS[(agent, job)]`, and `JOB_REQUEST.get`-with-default; on any
failure (exception, non-200, `ok` false) mutate nothing and report
failure. -/
def assignAndRecord (env : Env) (s : CState) (agent job : String) (pid : ℤ)
    (cores : List ℤ) : CState × Bool :=
  if env.allocOk agent job pid cores then
    ({ s with
        core_map := cores.foldl (fun m c => dset m c (some (agent, job))) s.core_map,
        allocations := dset s.allocations (agent, job)
          ((dget s.allocations (agent, job)).getD [] ++ cores),
        job_request := dsetdefault s.job_request (agent, job) (cores.length : ℤ) },
      true)
  else (s, false)

/-- A steal candidate as built by the scheduler:
`{"spare":…, "agent":…, "job":…, "idxs":…}`. -/
structure Candidate where
  spare : ℤ
  agent : String
  job : String
  idxs : List ℤ
deriving Repr, DecidableEq

/-- `[g for g, m in CORE_MAP.items() if m == (a, j)]`: the globally bound
slots of job `j` on agent `a`, in `CORE_MAP` insertion order. -/
def ownedSlots (s : CState) (a j : String) : List ℤ :=
  (s.core_map.filter (fun p => p.2 = some (a, j))).map (fun p => p.1)

/-- Candidate rows contributed by one agent's `/status` response (the
whole per-agent block is wrapped in `try/except: continue`, so an
unreachable agent contributes nothing).  `allocated` and `idxs` are both
the same `CORE_MAP` comprehension. -/
def candidatesForAgent (env : Env) (s : CState) (a_name : String) :
    List Candidate :=
  match env.status a_name with
  | none => []
  | some rows =>
      rows.foldl (fun acc j =>
        let idxs := ownedSlots s a_name j.job
        let allocated : ℤ := (idxs.length : ℤ)
        if allocated ≤ MIN_CORES_PER_JOB then acc
        else
          let used := estimate_used_cores j.cpu_percent allocated
          let spare := allocated - used
          if 1 ≤ spare ∧ MIN_CORES_PER_JOB ≤ allocated - 1 then
            acc ++ [⟨spare, a_name, j.job, idxs⟩]
          else acc) []

/-- Stable descending insertion by `spare`: the element is placed before
the first entry whose `spare` does not exceed it. -/
def insertBySpare (c : Candidate) : List Candidate → List Candidate
  | [] => [c]
  | d :: rest =>
      if d.spare ≤ c.spare then c :: d :: rest else d :: insertBySpare c rest

/-- `candidates.sort(key=lambda x: x["spare"], reverse=True)`: a stable
descending sort by `spare`.  Stable sorting by a key determines the
output list uniquely, so this stable insertion sort computes exactly the
list Python's stable sort produces. -/
def sortBySpareDesc (l : List Candidate) : List Candidate :=
  l.foldr insertBySpare []

/-- The full candidate list, iterating `AGENTS.items()` in insertion
order, then sorted by descending `spare`. -/
def buildCandidates (env : Env) (s : CState) : List Candidate :=
  sortBySpareDesc (s.agents.foldl (fun acc p => acc ++ candidatesForAgent env s p.1) [])

/-- One stolen-slot record `{"src_agent":…, "src_job":…, "idxs":…}`. -/
structure Stolen where
  src_agent : String
  src_job : String
  idxs : List ℤ
deriving Repr, DecidableEq

/-- The `while need_remaining > 0 and candidates:` loop: pop the top
candidate and take exactly its last listed bound slot (`c["idxs"][-1]`). -/
def stealSelect : ℤ → List Candidate → List Stolen
  | _, [] => []
  | needRem, c :: rest =>
      if 0 < needRem then
        let chosen := c.idxs.getLast?.toList
        ⟨c.agent, c.job, chosen⟩ :: stealSelect (needRem - (chosen.length : ℤ)) rest
      else []

/-- Execute the planned steals against `CORE_MAP`.  Each victim's block
is wrapped in `try/except: pass`: a failing `/status` re-fetch or a
raising `/release` call skips that victim's slot-freeing entirely.  The
re-fetched live core list only feeds the `/release` payload
(`keep_cores`), which does not touch the controller ledger. -/
def execSteals (env : Env) (cm : List (ℤ × Option (String × String)))
    (stolen : List Stolen) : List (ℤ × Option (String × String)) :=
  stolen.foldl (fun m st =>
    match env.status st.src_agent with
    | none => m
    | some _ =>
        if env.releaseRaises st.src_agent st.src_job then m
        else st.idxs.foldl (fun m2 g => dset m2 g none) m) cm

/-- The free global indices of the agent's currently registered range,
lowest first: `[g for g in agent_slots if CORE_MAP.get(g) is None]`. -/
def freeSlotsOf (cm : List (ℤ × Option (String × String))) (info : AgentInfo) :
    List ℤ :=
  (intRange info.offset info.total_cores).filter
    (fun g => (dget cm g).getD none = none)

/-- The steal phase of one request: build and sort candidates, plan the
steals, and, when enough slots were assembled, commit the frees,
recompute the requester's free slots, and attempt the final bind.  The
request is dequeued only when that bind succeeds. -/
def stealPhase (env : Env) (s : CState) (req : PendingReq) (info : AgentInfo) :
    CState :=
  let free_slots := freeSlotsOf s.core_map info
  let candidates := buildCandidates env s
  let need_remaining := req.need - (free_slots.length : ℤ)
  let stolen := stealSelect need_remaining candidates
  let final_rem := need_remaining - ((stolen.map (fun st => st.idxs.length)).sum : ℤ)
  if final_rem ≤ 0 ∧ stolen ≠ [] then
    let cm2 := execSteals env s.core_map stolen
    let s2 := { s with core_map := cm2 }
    let pick := pyTake req.need (freeSlotsOf cm2 info)
    if (pick.length : ℤ) = req.need then
      let (s3, ok) := assignAndRecord env s2 req.vm req.job req.pid pick
      if ok then { s3 with pending := removeFirst s3.pending req } else s3
    else s2
  else s

/-- Processing of one pending request inside the scheduling pass:
unknown agents are dropped; direct admission binds the first `need` free
indices when `len(free_slots) >= need + RESERVE_BUFFER` and the bind
succeeds; otherwise control falls through to conservative stealing. -/
def processOne (env : Env) (s : CState) (req : PendingReq) : CState :=
  match dget s.agents req.vm with
  | none => { s with pending := removeFirst s.pending req }
  | some info =>
      let free_slots := freeSlotsOf s.core_map info
      let direct :=
        if req.need + RESERVE_BUFFER ≤ (free_slots.length : ℤ) then
          let pick := pyTake req.need free_slots
          let (s2, ok) := assignAndRecord env s req.vm req.job req.pid pick
          if ok then some { s2 with pending := removeFirst s2.pending req }
          else none
        else none
      match direct with
      | some s2 => s2
      | none => stealPhase env s req info

/-- One scheduling pass: `for req in list(PENDING): …` — the snapshot of
the queue is iterated in FIFO order while the live state evolves. -/
def schedPass (env : Env) (s : CState) : CState :=
  s.pending.foldl (fun st req => processOne env st req) s

/-! ### Agent executor (`agent_instance.py`) -/

/-- One `jobs` entry on the agent: `{"pid": …, "cores": …}`. -/
structure JobRec where
  pid : ℤ
  cores : List ℤ
deriving Repr, DecidableEq

/-- `/allocate` handler: `os.sched_setaffinity(pid, set(cores))` then
`jobs[job] = {"pid": pid, "cores": cores}`; any exception (invalid pid,
affinity rejected) returns the 500 error with `jobs` untouched.
`affinityOk pid cores` models whether the affinity call for that pid and
core set succeeds. -/
def agentAllocate (affinityOk : ℤ → List ℤ → Bool)
    (jobs : List (String × JobRec)) (job : String) (pid : ℤ)
    (cores : List ℤ) : List (String × JobRec) × Bool :=
  if affinityOk pid cores then (dset jobs job ⟨pid, cores⟩, true)
  else (jobs, false)

/-! ### Spec-level invariant formulas and observers -/

/-- The spec's ledger-consistency formula, as a decidable checker:
every bound `CORE_MAP` entry appears in its job's Allocation, and every
index listed in an Allocation is bound to exactly that key. -/
def ledgerConsistentB (s : CState) : Bool :=
  s.core_map.all (fun p =>
    match p.2 with
    | none => true
    | some aj => decide (p.1 ∈ (dget s.allocations aj).getD [])) &&
  s.allocations.all (fun e => e.2.all (fun g => cmLookup s g = some e.1))

/-- `Σ_j |ALLOCATIONS[(a, j)]|` for one agent `a`. -/
def sumAllocFor (s : CState) (a : String) : ℕ :=
  ((s.allocations.filter (fun e => e.1.1 = a)).map (fun e => e.2.length)).sum

/-! ### Concrete execution traces -/

/-- Environment where every bind succeeds and agents report no jobs. -/
def envBindOnly : Env :=
  ⟨fun _ => some [], fun _ _ _ _ => true, fun _ _ => false⟩

/-- Environment for the spec's steal scenario: `vm1` reports `train`
(pid 111) on cores `[0,1,2,3]` at 50% CPU; binds succeed. -/
def envSteal50 : Env :=
  ⟨fun a => if a = "vm1" then some [⟨"train", 111, [0, 1, 2, 3], 50⟩] else none,
   fun _ _ _ _ => true, fun _ _ => false⟩

/-- Spec scenario: `vm1` registers with offset 0, total 4. -/
def sA1 : CState := register initState "vm1" (some "http://vm1:7001") (some 4) (some 0)

/-- … a request `job=train, cores_requested=4` is queued … -/
def sA2 : CState := (request_alloc sA1 "vm1" "train" 111 4).1

/-- … and directly admitted by the next scheduling pass. -/
def sA3 : CState := schedPass envBindOnly sA2

/-- With `train` holding all four slots, `job=infer` requests one core. -/
def sA4 : CState := (request_alloc sA3 "vm1" "infer" 222 1).1

/-- The next pass steals one core from `train` and binds it to `infer`. -/
def sA5 : CState := schedPass envSteal50 sA4

/-- Environment for the re-registered-offset steal trace: agent `A`
reports `j` (pid 11) idle at 0% CPU; binds succeed. -/
def envStealIdle : Env :=
  ⟨fun a => if a = "A" then some [⟨"j", 11, [4, 0], 0⟩] else none,
   fun _ _ _ _ => true, fun _ _ => false⟩

/-- Agent `A` first registers the range `[4, 6)`. -/
def sC1 : CState := register initState "A" (some "http://a") (some 2) (some 4)

/-- Job `j` requests one core on `A` … -/
def sC2 : CState := (request_alloc sC1 "A" "j" 11 1).1

/-- … and is admitted on slot 4. -/
def sC3 : CState := schedPass envBindOnly sC2

/-- `A` re-registers at offset 0 (range `[0, 2)`). -/
def sC4 : CState := register sC3 "A" (some "http://a") (some 2) (some 0)

/-- Job `j` requests one more core … -/
def sC5 : CState := (request_alloc sC4 "A" "j" 11 1).1

/-- … and now also holds slot 0, so its bound slots in `CORE_MAP`
insertion order are `[4, 0]`. -/
def sC6 : CState := schedPass envBindOnly sC5

/-- Job `k` requests two cores; only slot 1 is free, forcing a steal. -/
def sC7 : CState := (request_alloc sC6 "A" "k" 22 2).1

/-- The pass steals from `j` the slot latest in `CORE_MAP` insertion
order — slot 0, not `j`'s highest-index bound slot 4. -/
def sC8 : CState := schedPass envStealIdle sC7

/-- Agent `vm1` registers fully (endpoint, 4 cores at offset 0) … -/
def sB1 : CState := register initState "vm1" (some "http://vm1:7001") (some 4) (some 0)

/-- … and then sends a heartbeat: a `/register` call whose JSON carries
only `vm_name` (see `heartbeat_loop` in `agent_instance.py`). -/
def sB2 : CState := register sB1 "vm1" none none none

/-! ### Lemmas about the dictionary operations -/

theorem dget_dset {α β : Type} [DecidableEq α] (m : List (α × β)) (k k' : α) (v : β) :
    dget (dset m k v) k' = if k = k' then some v else dget m k' := by
  induction m with
  | nil => by_cases h : k = k' <;> simp [dset, dget, h]
  | cons p rest ih =>
      obtain ⟨a, b⟩ := p
      by_cases hak : a = k
      · subst hak
        by_cases h : a = k' <;> simp [dset, dget, h]
      · by_cases h : a = k'
        · subst h
          simp [dset, dget, hak, Ne.symm hak]
        · simp [dset, dget, hak, h, ih]

theorem dget_dpop {α β : Type} [DecidableEq α] (m : List (α × β)) (k k' : α) :
    dget (dpop m k) k' = if k' = k then none else dget m k' := by
  induction m with
  | nil => by_cases h : k' = k <;> simp [dpop, dget, h]
  | cons p rest ih =>
      obtain ⟨a, b⟩ := p
      by_cases hak : a = k
      · subst hak
        by_cases h : k' = a
        · simp_all [dpop, dget]
        · simp_all [dpop, dget, Ne.symm h]
      · by_cases h : a = k'
        · subst h
          simp [dpop, dget, hak, Ne.symm hak]
        · simp_all [dpop, dget]

theorem dget_foldl_dset_none (cores : List ℤ)
    (cm : List (ℤ × Option (String × String))) (g : ℤ) :
    (dget (cores.foldl (fun m c => dset m c none) cm) g).getD none =
      if g ∈ cores then none else (dget cm g).getD none := by
  induction cores generalizing cm with
  | nil => simp
  | cons c rest ih =>
      by_cases hg : g ∈ rest
      · simp [ih, hg]
      · by_cases hgc : g = c
        · subst hgc
          simp [ih, hg, dget_dset]
        · simp [ih, hg, hgc, dget_dset, Ne.symm hgc]

theorem mem_of_dget {α β : Type} [DecidableEq α] {m : List (α × β)} {k : α}
    {v : β} (h : dget m k = some v) : (k, v) ∈ m := by
  induction m with
  | nil => simp [dget] at h
  | cons p rest ih =>
      obtain ⟨a, b⟩ := p
      by_cases hak : a = k
      · subst hak
        simp [dget] at h
        simp [h]
      · simp [dget, hak] at h
        exact List.mem_cons_of_mem _ (ih h)

/-! ### C1, C2: the ledger invariants versus the steal path -/

/-- C1 (code bug): the ledger-consistency invariant fails on a reachable
state.  Running the spec's own steal scenario (register `vm1` with 4
cores, admit `train` on `[0,1,2,3]`, then admit `infer` by stealing one
core), the pass clears `CORE_MAP[3]` and rebinds it to `infer` but never
removes 3 from the victim's `ALLOCATIONS` entry: afterwards slot 3 is
listed in both Allocation entries while `core_map` binds it to `infer`,
so a slot appears in `Allocation[(a,j)]` without being Bound(a,j). -/
theorem ledger_consistency_broken_by_steal :
    ledgerConsistentB sA3 = true ∧
    ledgerConsistentB sA5 = false ∧
    (3 : ℤ) ∈ (dget sA5.allocations ("vm1", "train")).getD [] ∧
    (3 : ℤ) ∈ (dget sA5.allocations ("vm1", "infer")).getD [] ∧
    cmLookup sA5 3 = some ("vm1", "infer") := by decide

/-- C2 (code bug): the capacity invariant fails on the same reachable
state: after the steal, agent `vm1` with `total_cores = 4` carries
`|Allocation[(vm1,train)]| + |Allocation[(vm1,infer)]| = 4 + 1 = 5`,
because the victim's Allocation was never shrunk. -/
theorem capacity_invariant_broken_by_steal :
    (dget sA5.agents "vm1").map AgentInfo.total_cores = some 4 ∧
    sumAllocFor sA5 "vm1" = 5 := by decide

/-! ### C3: heartbeat re-registration -/

/-- C3 (code bug): a heartbeat — a `/register` call carrying only the
agent name — does not leave the recorded fields unchanged.  The handler
falls back to the JSON defaults `total_cores = 1`, `core_offset = 0`,
`endpoint = None` and overwrites the live entry wholesale, wiping the
capacity the spec says a heartbeat must preserve. -/
theorem heartbeat_overwrites_capacity :
    dget sB1.agents "vm1" = some ⟨4, some "http://vm1:7001", 0⟩ ∧
    dget sB2.agents "vm1" = some ⟨1, none, 0⟩ := by decide

/-! ### C8: unknown-agent rejection on enqueue -/

/-- C8: a `/request` naming an unregistered agent is rejected
synchronously with the whole state returned untouched (never queued);
for a registered agent it appends exactly one pending request and
records the requested core count under `(agent, job)`. -/
theorem request_alloc_spec (s : CState) (vm job : String) (pid need : ℤ) :
    (dget s.agents vm = none → request_alloc s vm job pid need = (s, false)) ∧
    (∀ info, dget s.agents vm = some info →
        request_alloc s vm job pid need =
          ({ s with
              pending := s.pending ++ [⟨vm, job, pid, need⟩],
              job_request := dset s.job_request (vm, job) need }, true)) := by
  constructor
  · intro h
    simp [request_alloc, h]
  · intro info h
    simp [request_alloc, h]

/-- Witness for C8 at a concrete input: the empty controller rejects a
request for the never-registered agent `ghost` without any state
change. -/
theorem request_alloc_spec_witness :
    dget initState.agents "ghost" = none ∧
    request_alloc initState "ghost" "job" 7 2 = (initState, false) :=
  ⟨by decide, (request_alloc_spec initState "ghost" "job" 7 2).1 (by decide)⟩

/-! ### C9: agent-side allocate atomicity -/

/-- C9: the agent's `allocate(job, pid, cores)` either succeeds — the
affinity call for `pid` accepted the core set — and records exactly
`{pid, cores}` under `job`, or fails (invalid pid / rejected affinity
call) and leaves the job table completely unchanged; no partial binding
is recorded on failure. -/
theorem agentAllocate_atomic (aff : ℤ → List ℤ → Bool)
    (jobs : List (String × JobRec)) (job : String) (pid : ℤ)
    (cores : List ℤ) :
    (aff pid cores = true →
        agentAllocate aff jobs job pid cores = (dset jobs job ⟨pid, cores⟩, true) ∧
        dget (agentAllocate aff jobs job pid cores).1 job = some ⟨pid, cores⟩) ∧
    (aff pid cores = false →
        agentAllocate aff jobs job pid cores = (jobs, false)) := by
  refine ⟨fun h => ⟨by simp [agentAllocate, h], ?_⟩, fun h => by simp [agentAllocate, h]⟩
  simp [agentAllocate, h, dget_dset]

/-- Witness for C9 at a concrete input: with an accepting affinity call,
allocating `train` to pid 9 on cores `[0, 1]` records exactly that. -/
theorem agentAllocate_atomic_witness :
    (fun (_ : ℤ) (_ : List ℤ) => true) 9 [0, 1] = true ∧
    agentAllocate (fun _ _ => true) [] "train" 9 [0, 1] =
      ([("train", ⟨9, [0, 1]⟩)], true) :=
  ⟨rfl, ((agentAllocate_atomic (fun _ _ => true) [] "train" 9 [0, 1]).1 rfl).1⟩

/-! ### C10, C4: completion semantics -/

/-- C10: for a key present in the allocation table, `complete` frees
every listed slot, removes the Allocation, and returns success with the
freed indices, and its result is identical whether the outbound
`/release` call to the agent succeeds or fails — the source swallows
that call's outcome with `try/except: pass`. -/
theorem complete_success_ignores_release (s : CState) (vm job : String)
    (cores : List ℤ) (h : dget s.allocations (vm, job) = some cores)
    (r1 r2 : Bool) :
    complete r1 s vm job = complete r2 s vm job ∧
    (complete r1 s vm job).2 = some cores ∧
    (∀ c ∈ cores, cmLookup (complete r1 s vm job).1 c = none) ∧
    dget (complete r1 s vm job).1.allocations (vm, job) = none := by
  refine ⟨rfl, by simp [complete, h], ?_, by simp [complete, h, dget_dpop]⟩
  intro c hc
  simp [complete, h, cmLookup, dget_foldl_dset_none, hc]

/-- Witness for C10 at a concrete input: completing `train` on the
direct-admission trace state frees `[0,1,2,3]` identically for both
release outcomes. -/
theorem complete_success_ignores_release_witness :
    dget sA3.allocations ("vm1", "train") = some [0, 1, 2, 3] ∧
    (complete true sA3 "vm1" "train" = complete false sA3 "vm1" "train" ∧
     (complete true sA3 "vm1" "train").2 = some [0, 1, 2, 3] ∧
     (∀ c ∈ [(0 : ℤ), 1, 2, 3], cmLookup (complete true sA3 "vm1" "train").1 c = none) ∧
     dget (complete true sA3 "vm1" "train").1.allocations ("vm1", "train") = none) :=
  ⟨by decide,
   complete_success_ignores_release sA3 "vm1" "train" [0, 1, 2, 3] (by decide) true false⟩

/-- C4: completing a key present in the allocation table succeeds with
the stored core list, frees every slot owned by that key, and removes
both the Allocation and the stored originally-requested-count entry; a
second `complete` for the same key then fails (`NotAllocated`) and
returns the state bit-for-bit unchanged.  The ownership hypothesis
(every slot bound to the key is listed in its Allocation) holds in every
state the operations construct, since binding always records the slot in
the Allocation. -/
theorem complete_idempotent (r1 r2 : Bool) (s : CState) (vm job : String)
    (cores : List ℤ) (h : dget s.allocations (vm, job) = some cores)
    (hown : ∀ p ∈ s.core_map, p.2 = some (vm, job) → p.1 ∈ cores) :
    (complete r1 s vm job).2 = some cores ∧
    (∀ g : ℤ, cmLookup s g = some (vm, job) →
        cmLookup (complete r1 s vm job).1 g = none) ∧
    dget (complete r1 s vm job).1.allocations (vm, job) = none ∧
    dget (complete r1 s vm job).1.job_request (vm, job) = none ∧
    complete r2 (complete r1 s vm job).1 vm job =
      ((complete r1 s vm job).1, none) := by
  refine ⟨by simp [complete, h], ?_, by simp [complete, h, dget_dpop],
    by simp [complete, h, dget_dpop], ?_⟩
  · intro g hg
    have hmem : g ∈ cores := by
      unfold cmLookup at hg
      cases hd : dget s.core_map g with
      | none => simp [hd] at hg
      | some v =>
          have hv : v = some (vm, job) := by simpa [hd] using hg
          exact hown (g, v) (mem_of_dget hd) (by simpa using hv)
    simp [complete, h, cmLookup, dget_foldl_dset_none, hmem]
  · have hnone : dget (complete r1 s vm job).1.allocations (vm, job) = none := by
      simp [complete, h, dget_dpop]
    cases hs : complete r1 s vm job with
    | mk s' res =>
        simp only [hs] at hnone ⊢
        simp [complete, hnone]

/-- Witness for C4 at a concrete input: on the direct-admission trace
state, the first `complete` for `(vm1, train)` succeeds and the second
fails without touching the state. -/
theorem complete_idempotent_witness :
    dget sA3.allocations ("vm1", "train") = some [0, 1, 2, 3] ∧
    (∀ p ∈ sA3.core_map, p.2 = some ("vm1", "train") → p.1 ∈ [(0 : ℤ), 1, 2, 3]) ∧
    complete false (complete true sA3 "vm1" "train").1 "vm1" "train" =
      ((complete true sA3 "vm1" "train").1, none) :=
  ⟨by decide, by decide,
   (complete_idempotent true false sA3 "vm1" "train" [0, 1, 2, 3]
     (by decide) (by decide)).2.2.2.2⟩

/-! ### C5: the steal-victim slot choice -/

/-- C5 (counterexample): the scheduler does not steal the victim's
highest-index bound slot; it steals `c["idxs"][-1]`, the bound slot
latest in `CORE_MAP` insertion order.  After agent `A` re-registers at a
lower offset, job `j` holds slots `[4, 0]` in insertion order; the pass
steals slot 0 — job `j` keeps its highest-index bound slot 4 and loses
slot 0 to job `k`. -/
theorem steal_takes_insertion_order_last_not_highest :
    ownedSlots sC7 "A" "j" = [4, 0] ∧
    ownedSlots sC8 "A" "j" = [4] ∧
    cmLookup sC8 0 = some ("A", "k") ∧
    cmLookup sC8 4 = some ("A", "j") := by decide

/-! ### C7: the used-core estimator -/

theorem fdiv_num_den (q : ℚ) : Int.fdiv q.num (q.den : ℤ) = ⌊q⌋ := by
  rw [Rat.floor_def]
  exact Int.fdiv_eq_ediv _ (Int.ofNat_nonneg _)

theorem num_sub_floor_mul_den (q : ℚ) :
    (q.num : ℚ) - (⌊q⌋ : ℚ) * (q.den : ℚ) = (q.den : ℚ) * Int.fract q := by
  have hd : (q.den : ℚ) ≠ 0 := by
    exact_mod_cast q.den_nz
  have hnum : (q.num : ℚ) = q * (q.den : ℚ) := (div_eq_iff hd).mp (Rat.num_div_den q)
  rw [Int.fract, hnum]
  ring

/-- `pyRound` restated over `⌊q⌋` and the fractional part: the three
integer branch tests are exactly fraction below, above, or at one half. -/
theorem pyRound_eq (q : ℚ) :
    pyRound q =
      if Int.fract q < 1/2 then ⌊q⌋
      else if 1/2 < Int.fract q then ⌊q⌋ + 1
      else if Even ⌊q⌋ then ⌊q⌋ else ⌊q⌋ + 1 := by
  have hden0 : (0 : ℚ) < (q.den : ℚ) := by
    exact_mod_cast q.pos
  have hcast : ((2 * (q.num - ⌊q⌋ * (q.den : ℤ)) : ℤ) : ℚ) =
      (q.den : ℚ) * (2 * Int.fract q) := by
    push_cast
    have h := num_sub_floor_mul_den q
    linarith [h]
  have h1 : 2 * (q.num - ⌊q⌋ * (q.den : ℤ)) < (q.den : ℤ) ↔
      Int.fract q < 1/2 := by
    constructor
    · intro h
      have hq : ((2 * (q.num - ⌊q⌋ * (q.den : ℤ)) : ℤ) : ℚ) < ((q.den : ℤ) : ℚ) := by
        exact_mod_cast h
      rw [hcast] at hq
      push_cast at hq
      nlinarith
    · intro h
      have hq : ((2 * (q.num - ⌊q⌋ * (q.den : ℤ)) : ℤ) : ℚ) < ((q.den : ℤ) : ℚ) := by
        rw [hcast]
        push_cast
        nlinarith
      exact_mod_cast hq
  have h2 : (q.den : ℤ) < 2 * (q.num - ⌊q⌋ * (q.den : ℤ)) ↔
      1/2 < Int.fract q := by
    constructor
    · intro h
      have hq : ((q.den : ℤ) : ℚ) < ((2 * (q.num - ⌊q⌋ * (q.den : ℤ)) : ℤ) : ℚ) := by
        exact_mod_cast h
      rw [hcast] at hq
      push_cast at hq
      nlinarith
    · intro h
      have hq : ((q.den : ℤ) : ℚ) < ((2 * (q.num - ⌊q⌋ * (q.den : ℤ)) : ℤ) : ℚ) := by
        rw [hcast]
        push_cast
        nlinarith
      exact_mod_cast hq
  unfold pyRound
  simp only [fdiv_num_den, h1, h2]

/-- `⌊q⌋ ≤ pyRound q ≤ ⌊q⌋ + 1`. -/
theorem pyRound_bounds (q : ℚ) : ⌊q⌋ ≤ pyRound q ∧ pyRound q ≤ ⌊q⌋ + 1 := by
  rw [pyRound_eq]
  split_ifs <;> omega

/-- Round-half-even is monotone. -/
theorem pyRound_mono {x y : ℚ} (h : x ≤ y) : pyRound x ≤ pyRound y := by
  have hfl : ⌊x⌋ ≤ ⌊y⌋ := Int.floor_le_floor h
  rcases lt_or_eq_of_le hfl with hlt | heq
  · calc pyRound x ≤ ⌊x⌋ + 1 := (pyRound_bounds x).2
      _ ≤ ⌊y⌋ := hlt
      _ ≤ pyRound y := (pyRound_bounds y).1
  · have hfr : Int.fract x ≤ Int.fract y := by
      rw [Int.fract, Int.fract, heq]
      exact sub_le_sub_right h _
    rw [pyRound_eq, pyRound_eq, heq]
    split_ifs <;> first | omega | linarith

/-- `cpuFrac` is the exact quotient `(cpu/100) * allocated`. -/
theorem cpuFrac_eq (cpu : ℚ) (alloc : ℤ) :
    cpuFrac cpu alloc = cpu / 100 * (alloc : ℚ) := by
  unfold cpuFrac
  rw [Rat.divInt_eq_div]
  have hd : (cpu.den : ℚ) ≠ 0 := by
    exact_mod_cast cpu.den_nz
  have hnum : (cpu.num : ℚ) = cpu * (cpu.den : ℚ) :=
    (div_eq_iff hd).mp (Rat.num_div_den cpu)
  push_cast
  field_simp
  linear_combination (100 : ℚ) * (alloc : ℚ) * hnum

/-- `clamp(x, lo, hi)` as used by the spec's description of the
estimator. -/
def clamp (lo hi x : ℤ) : ℤ := max lo (min x hi)

/-- C7: for `allocated ≥ 1`, `estimate_used_cores(cpu_percent,
allocated)` equals `round(cpu_percent/100 × allocated)` clamped to
`[1, allocated]` (with Python's round-half-even), is non-decreasing in
`cpu_percent`, and always lies in `[1, allocated]`. -/
theorem estimate_used_cores_spec (allocated : ℤ) (hall : 1 ≤ allocated) :
    (∀ cpu : ℚ, estimate_used_cores cpu allocated =
        clamp 1 allocated (pyRound (cpu / 100 * (allocated : ℚ)))) ∧
    (∀ cpu cpu' : ℚ, cpu ≤ cpu' →
        estimate_used_cores cpu allocated ≤ estimate_used_cores cpu' allocated) ∧
    (∀ cpu : ℚ, 1 ≤ estimate_used_cores cpu allocated ∧
        estimate_used_cores cpu allocated ≤ allocated) := by
  refine ⟨fun cpu => ?_, fun cpu cpu' h => ?_, fun cpu => ?_⟩
  · unfold estimate_used_cores clamp
    rw [cpuFrac_eq]
    omega
  · unfold estimate_used_cores
    have harg : cpuFrac cpu allocated ≤ cpuFrac cpu' allocated := by
      rw [cpuFrac_eq, cpuFrac_eq]
      have halloc : (0 : ℚ) ≤ (allocated : ℚ) := by
        exact_mod_cast le_trans zero_le_one hall
      exact mul_le_mul_of_nonneg_right
        ((div_le_div_iff_of_pos_right (by norm_num : (0 : ℚ) < 100)).mpr h) halloc
    exact min_le_min (max_le_max le_rfl (pyRound_mono harg)) le_rfl
  · unfold estimate_used_cores
    exact ⟨le_min (le_max_left _ _) hall, min_le_right _ _⟩

/-- Witness for C7 at a concrete input: `allocated = 4`,
`cpu = 50 ≤ 75`. -/
theorem estimate_used_cores_spec_witness :
    (1 : ℤ) ≤ 4 ∧ estimate_used_cores 50 4 ≤ estimate_used_cores 75 4 :=
  ⟨by decide, (estimate_used_cores_spec 4 (by decide)).2.1 50 75 (by norm_num)⟩

/-! ### C6: direct admission -/

theorem intRange_sorted (offset total : ℤ) :
    (intRange offset total).Sorted (· < ·) := by
  unfold intRange
  have h : List.Pairwise (fun a b : ℕ => offset + (a : ℤ) < offset + (b : ℤ))
      (List.range total.toNat) := by
    refine (List.pairwise_lt_range _).imp ?_
    intro a b hab
    have hab' : (a : ℤ) < (b : ℤ) := by exact_mod_cast hab
    exact add_lt_add_left hab' offset
  exact List.pairwise_map.mpr h

theorem freeSlotsOf_sorted (cm : List (ℤ × Option (String × String)))
    (info : AgentInfo) : (freeSlotsOf cm info).Sorted (· < ·) :=
  List.Pairwise.sublist (List.filter_sublist _)
    (intRange_sorted info.offset info.total_cores)

/-- C6: for a pending request whose agent is registered and currently
has at least `need + RESERVE_BUFFER` free slots, and whose bind call
succeeds, the scheduling step picks the first `need` free indices of the
agent's range — an ascending (hence lowest-first) list — marks them
bound to `(agent, job)`, creates or extends the Allocation with exactly
them, records the request-count default, and removes the request from
the pending queue. -/
theorem direct_admission (env : Env) (s : CState) (req : PendingReq)
    (info : AgentInfo) (hag : dget s.agents req.vm = some info)
    (hfree : req.need + RESERVE_BUFFER ≤ ((freeSlotsOf s.core_map info).length : ℤ))
    (hbind : env.allocOk req.vm req.job req.pid
      (pyTake req.need (freeSlotsOf s.core_map info)) = true) :
    (freeSlotsOf s.core_map info).Sorted (· < ·) ∧
    processOne env s req =
      { s with
          core_map := (pyTake req.need (freeSlotsOf s.core_map info)).foldl
            (fun m c => dset m c (some (req.vm, req.job))) s.core_map,
          allocations := dset s.allocations (req.vm, req.job)
            ((dget s.allocations (req.vm, req.job)).getD []
              ++ pyTake req.need (freeSlotsOf s.core_map info)),
          job_request := dsetdefault s.job_request (req.vm, req.job)
            (((pyTake req.need (freeSlotsOf s.core_map info)).length : ℤ)),
          pending := removeFirst s.pending req } := by
  refine ⟨freeSlotsOf_sorted _ _, ?_⟩
  unfold processOne
  rw [hag]
  simp only [assignAndRecord, hbind, if_pos hfree, if_true]

/-- Witness for C6 at the spec's scenario: agent `vm1` (4 cores at
offset 0) with everything free admits `train` (need 4) directly, and the
resulting Allocation is exactly `[0, 1, 2, 3]`. -/
theorem direct_admission_witness :
    dget sA2.agents "vm1" = some ⟨4, some "http://vm1:7001", 0⟩ ∧
    (freeSlotsOf sA2.core_map ⟨4, some "http://vm1:7001", 0⟩).Sorted (· < ·) ∧
    dget sA3.allocations ("vm1", "train") = some [0, 1, 2, 3] :=
  ⟨by decide,
   (direct_admission envBindOnly sA2 ⟨"vm1", "train", 111, 4⟩
      ⟨4, some "http://vm1:7001", 0⟩ (by decide) (by decide) (by decide)).1,
   by decide⟩

/-! ### C5: the stealing floor

The remaining development proves that a scheduling pass never drops any
job's set of bound cores below `MIN_CORES_PER_JOB`.  States are
constrained only by `CoreMapWF` — unique `CORE_MAP` keys, which Python
dictionaries guarantee in every reachable state. -/

/-- Python dict keys are unique: the well-formedness carried through the
scheduling-pass lemmas. -/
def CoreMapWF (s : CState) : Prop := (s.core_map.map Prod.fst).Nodup

/-- Effective binding of slot `g` in a raw core map (absent = Free). -/
def vget (cm : List (ℤ × Option (String × String))) (g : ℤ) :
    Option (String × String) :=
  (dget cm g).getD none

/-- Number of slots a key currently owns in a raw core map: the length
of the `CORE_MAP.items()` comprehension the scheduler itself uses. -/
def cmCount (cm : List (ℤ × Option (String × String)))
    (aj : String × String) : ℕ :=
  (cm.filter (fun p => p.2 = some aj)).length

theorem ownedSlots_length (s : CState) (a j : String) :
    (ownedSlots s a j).length = cmCount s.core_map (a, j) := by
  unfold ownedSlots cmCount
  exact List.length_map _ _

theorem vget_dset (cm : List (ℤ × Option (String × String))) (g g' : ℤ)
    (v : Option (String × String)) :
    vget (dset cm g v) g' = if g = g' then v else vget cm g' := by
  unfold vget
  rw [dget_dset]
  split_ifs <;> rfl

theorem cmCount_cons (k : ℤ) (v : Option (String × String))
    (rest : List (ℤ × Option (String × String))) (aj : String × String) :
    cmCount ((k, v) :: rest) aj =
      (if v = some aj then 1 else 0) + cmCount rest aj := by
  unfold cmCount
  by_cases h : v = some aj
  · simp [List.filter_cons, h]
    omega
  · simp [List.filter_cons, h]

theorem cmCount_dset_of_free (cm : List (ℤ × Option (String × String)))
    (g : ℤ) (x : Option (String × String)) (aj : String × String)
    (hfree : vget cm g = none) :
    cmCount cm aj ≤ cmCount (dset cm g x) aj := by
  induction cm with
  | nil => simp [cmCount]
  | cons p rest ih =>
      obtain ⟨k, v⟩ := p
      by_cases hk : k = g
      · subst hk
        have hv : v = none := by
          simpa [vget, dget] using hfree
        subst hv
        simp [dset, cmCount_cons]
      · have hfree' : vget rest g = none := by
          simpa [vget, dget, hk] using hfree
        simp only [dset, hk, if_false, cmCount_cons]
        exact Nat.add_le_add_left (ih hfree') _

theorem cmCount_dset_none_le (cm : List (ℤ × Option (String × String)))
    (g : ℤ) (aj : String × String) :
    cmCount (dset cm g none) aj ≤ cmCount cm aj ∧
    cmCount cm aj ≤ cmCount (dset cm g none) aj + 1 := by
  induction cm with
  | nil => simp [cmCount, dset]
  | cons p rest ih =>
      obtain ⟨k, v⟩ := p
      by_cases hk : k = g
      · have hd : dset ((k, v) :: rest) g none = (k, none) :: rest := by
          simp [dset, hk]
        rw [hd, cmCount_cons, cmCount_cons]
        have hz : ((if (none : Option (String × String)) = some aj then 1 else 0) : ℕ) = 0 := by
          simp
        rw [hz]
        split_ifs <;> omega
      · have hd : dset ((k, v) :: rest) g none = (k, v) :: dset rest g none := by
          simp [dset, hk]
        rw [hd, cmCount_cons, cmCount_cons]
        omega

theorem cmCount_dset_none_eq (cm : List (ℤ × Option (String × String)))
    (g : ℤ) (aj : String × String) (h : vget cm g ≠ some aj) :
    cmCount (dset cm g none) aj = cmCount cm aj := by
  induction cm with
  | nil => simp [cmCount, dset]
  | cons p rest ih =>
      obtain ⟨k, v⟩ := p
      by_cases hk : k = g
      · have hv : v ≠ some aj := by
          simpa [vget, dget, hk] using h
        have hd : dset ((k, v) :: rest) g none = (k, none) :: rest := by
          simp [dset, hk]
        rw [hd, cmCount_cons, cmCount_cons, if_neg hv]
        simp
      · have h' : vget rest g ≠ some aj := by
          simpa [vget, dget, hk] using h
        have hd : dset ((k, v) :: rest) g none = (k, v) :: dset rest g none := by
          simp [dset, hk]
        rw [hd, cmCount_cons, cmCount_cons, ih h']

theorem vget_of_mem_filter (cm : List (ℤ × Option (String × String)))
    (hn : (cm.map Prod.fst).Nodup) (aj : String × String) (g : ℤ)
    (h : g ∈ (cm.filter (fun p => p.2 = some aj)).map Prod.fst) :
    vget cm g = some aj := by
  induction cm with
  | nil => simp at h
  | cons p rest ih =>
      obtain ⟨k, v⟩ := p
      simp only [List.map_cons, List.nodup_cons] at hn
      by_cases hv : v = some aj
      · rw [List.filter_cons_of_pos (by simp [hv])] at h
        simp only [List.map_cons] at h
        rcases List.mem_cons.mp h with hg | hg
        · subst hg
          simp [vget, dget, hv]
        · have hgrest : g ∈ rest.map Prod.fst :=
            List.map_subset Prod.fst (List.filter_sublist _).subset hg
          have hkg : k ≠ g := fun hkg => hn.1 (hkg ▸ hgrest)
          have hres := ih hn.2 hg
          simpa [vget, dget, hkg] using hres
      · rw [List.filter_cons_of_neg (by simp [hv])] at h
        have hgrest : g ∈ rest.map Prod.fst :=
          List.map_subset Prod.fst (List.filter_sublist _).subset h
        have hkg : k ≠ g := fun hkg => hn.1 (hkg ▸ hgrest)
        have hres := ih hn.2 h
        simpa [vget, dget, hkg] using hres

/-- Membership in a job's owned-slot list determines the slot's binding
(under unique keys). -/
theorem vget_of_mem_ownedSlots (s : CState) (hn : CoreMapWF s)
    {a j : String} {g : ℤ} (h : g ∈ ownedSlots s a j) :
    vget s.core_map g = some (a, j) :=
  vget_of_mem_filter s.core_map hn (a, j) g h

theorem vget_foldl_dset_none (idxs : List ℤ)
    (cm : List (ℤ × Option (String × String))) (g : ℤ) :
    vget (idxs.foldl (fun m2 x => dset m2 x none) cm) g =
      if g ∈ idxs then none else vget cm g :=
  dget_foldl_dset_none idxs cm g

/-- Freeing the slots `idxs` can lower a key's count by at most one when
every freed slot the key owns is the single designated slot `gaj`; the
count is untouched if `gaj` is not currently owned or not freed. -/
theorem cmCount_free_idxs (aj : String × String) (gaj : ℤ) (idxs : List ℤ) :
    ∀ cm, (∀ g ∈ idxs, vget cm g = some aj → g = gaj) →
      cmCount cm aj ≤ cmCount (idxs.foldl (fun m2 x => dset m2 x none) cm) aj + 1 ∧
      (vget cm gaj ≠ some aj →
        cmCount (idxs.foldl (fun m2 x => dset m2 x none) cm) aj = cmCount cm aj) ∧
      (gaj ∉ idxs →
        cmCount (idxs.foldl (fun m2 x => dset m2 x none) cm) aj = cmCount cm aj) := by
  induction idxs with
  | nil =>
      intro cm _
      simp only [List.foldl_nil]
      exact ⟨by omega, by simp, by simp⟩
  | cons g gs ih =>
      intro cm hyp
      simp only [List.foldl_cons]
      by_cases hg : vget cm g = some aj
      · have hgaj : g = gaj := hyp g (List.mem_cons_self g gs) hg
        subst hgaj
        have hv' : vget (dset cm g none) g ≠ some aj := by
          rw [vget_dset, if_pos rfl]
          simp
        have hyp' : ∀ x ∈ gs, vget (dset cm g none) x = some aj → x = g := by
          intro x hx hvx
          rw [vget_dset] at hvx
          by_cases hgx : g = x
          · exact hgx.symm
          · rw [if_neg hgx] at hvx
            exact hyp x (List.mem_cons_of_mem _ hx) hvx
        have hih := ih (dset cm g none) hyp'
        have hle := cmCount_dset_none_le cm g aj
        have hfin := hih.2.1 hv'
        refine ⟨by omega, fun hne => absurd hg hne,
          fun hnm => absurd (List.mem_cons_self g gs) hnm⟩
      · have heq := cmCount_dset_none_eq cm g aj hg
        have hyp' : ∀ x ∈ gs, vget (dset cm g none) x = some aj → x = gaj := by
          intro x hx hvx
          rw [vget_dset] at hvx
          by_cases hgx : g = x
          · rw [if_pos hgx] at hvx
            exact absurd hvx (by simp)
          · rw [if_neg hgx] at hvx
            exact hyp x (List.mem_cons_of_mem _ hx) hvx
        have hih := ih (dset cm g none) hyp'
        have hgd : vget (dset cm g none) gaj = none ∨
            vget (dset cm g none) gaj = vget cm gaj := by
          rw [vget_dset]
          by_cases hgx : g = gaj
          · rw [if_pos hgx]
            exact Or.inl rfl
          · rw [if_neg hgx]
            exact Or.inr rfl
        refine ⟨by omega, fun hne => ?_, fun hnm => ?_⟩
        · have h1 : vget (dset cm g none) gaj ≠ some aj := by
            rcases hgd with h | h
            · rw [h]
              simp
            · rw [h]
              exact hne
          rw [hih.2.1 h1, heq]
        · have hgs : gaj ∉ gs := fun hx => hnm (List.mem_cons_of_mem _ hx)
          rw [hih.2.2 hgs, heq]

/-- Freeing slots none of which the key owns leaves its count
untouched. -/
theorem cmCount_free_idxs_eq (aj : String × String) (idxs : List ℤ) :
    ∀ cm, (∀ g ∈ idxs, vget cm g ≠ some aj) →
      cmCount (idxs.foldl (fun m2 x => dset m2 x none) cm) aj = cmCount cm aj := by
  induction idxs with
  | nil =>
      intro cm _
      simp
  | cons g gs ih =>
      intro cm hyp
      simp only [List.foldl_cons]
      have hg := hyp g (List.mem_cons_self g gs)
      have hyp' : ∀ x ∈ gs, vget (dset cm g none) x ≠ some aj := by
        intro x hx
        rw [vget_dset]
        by_cases hgx : g = x
        · rw [if_pos hgx]
          simp
        · rw [if_neg hgx]
          exact hyp x (List.mem_cons_of_mem _ hx)
      rw [ih (dset cm g none) hyp', cmCount_dset_none_eq cm g aj hg]

/-- Across the whole steal-execution fold, a key's count drops by at
most one when every aj-owned slot scheduled for freeing is the single
slot `gaj`, and not at all when `gaj` is not owned by the key. -/
theorem cmCount_execSteals_ge (env : Env) (aj : String × String) (gaj : ℤ)
    (stolen : List Stolen) :
    ∀ cm, (∀ st ∈ stolen, ∀ g ∈ st.idxs, vget cm g = some aj → g = gaj) →
      cmCount cm aj ≤ cmCount (execSteals env cm stolen) aj + 1 ∧
      (vget cm gaj ≠ some aj →
        cmCount (execSteals env cm stolen) aj = cmCount cm aj) := by
  unfold execSteals
  induction stolen with
  | nil =>
      intro cm _
      simp only [List.foldl_nil]
      exact ⟨by omega, by simp⟩
  | cons st rest ih =>
      intro cm hyp
      simp only [List.foldl_cons]
      cases hst : env.status st.src_agent with
      | none =>
          simp only [hst]
          exact ih cm (fun st' h' => hyp st' (List.mem_cons_of_mem _ h'))
      | some rows =>
          simp only [hst]
          by_cases hrel : env.releaseRaises st.src_agent st.src_job = true
          · rw [if_pos hrel]
            exact ih cm (fun st' h' => hyp st' (List.mem_cons_of_mem _ h'))
          · rw [if_neg hrel]
            have hT := cmCount_free_idxs aj gaj st.idxs cm
              (hyp st (List.mem_cons_self _ _))
            have hyp' : ∀ st' ∈ rest, ∀ g ∈ st'.idxs,
                vget (st.idxs.foldl (fun m2 g2 => dset m2 g2 none) cm) g = some aj →
                  g = gaj := by
              intro st' h' g hg hv
              rw [vget_foldl_dset_none] at hv
              by_cases hmem : g ∈ st.idxs
              · rw [if_pos hmem] at hv
                exact absurd hv (by simp)
              · rw [if_neg hmem] at hv
                exact hyp st' (List.mem_cons_of_mem _ h') g hg hv
            have hih := ih _ hyp'
            constructor
            · by_cases hvg : vget cm gaj = some aj
              · by_cases hmem : gaj ∈ st.idxs
                · have h1 : vget (st.idxs.foldl (fun m2 g2 => dset m2 g2 none) cm)
                      gaj ≠ some aj := by
                    rw [vget_foldl_dset_none, if_pos hmem]
                    simp
                  have h2 := hih.2 h1
                  have h3 := hT.1
                  omega
                · have h2 := hT.2.2 hmem
                  have h3 := hih.1
                  omega
              · have h2 := hT.2.1 hvg
                have h1 : vget (st.idxs.foldl (fun m2 g2 => dset m2 g2 none) cm)
                    gaj ≠ some aj := by
                  rw [vget_foldl_dset_none]
                  split_ifs
                  · simp
                  · exact hvg
                have h3 := hih.2 h1
                omega
            · intro hvg
              have h2 := hT.2.1 hvg
              have h1 : vget (st.idxs.foldl (fun m2 g2 => dset m2 g2 none) cm)
                  gaj ≠ some aj := by
                rw [vget_foldl_dset_none]
                split_ifs
                · simp
                · exact hvg
              rw [hih.2 h1, h2]

/-- If no freed slot is owned by the key, the fold leaves its count
unchanged. -/
theorem cmCount_execSteals_eq (env : Env) (aj : String × String)
    (stolen : List Stolen) :
    ∀ cm, (∀ st ∈ stolen, ∀ g ∈ st.idxs, vget cm g ≠ some aj) →
      cmCount (execSteals env cm stolen) aj = cmCount cm aj := by
  unfold execSteals
  induction stolen with
  | nil =>
      intro cm _
      simp
  | cons st rest ih =>
      intro cm hyp
      simp only [List.foldl_cons]
      cases hst : env.status st.src_agent with
      | none =>
          simp only [hst]
          exact ih cm (fun st' h' => hyp st' (List.mem_cons_of_mem _ h'))
      | some rows =>
          simp only [hst]
          by_cases hrel : env.releaseRaises st.src_agent st.src_job = true
          · rw [if_pos hrel]
            exact ih cm (fun st' h' => hyp st' (List.mem_cons_of_mem _ h'))
          · rw [if_neg hrel]
            have hyp' : ∀ st' ∈ rest, ∀ g ∈ st'.idxs,
                vget (st.idxs.foldl (fun m2 g2 => dset m2 g2 none) cm) g ≠ some aj := by
              intro st' h' g hg
              rw [vget_foldl_dset_none]
              by_cases hmem : g ∈ st.idxs
              · rw [if_pos hmem]
                simp
              · rw [if_neg hmem]
                exact hyp st' (List.mem_cons_of_mem _ h') g hg
            rw [ih _ hyp',
              cmCount_free_idxs_eq aj st.idxs cm (hyp st (List.mem_cons_self _ _))]

/-- What the scheduler guarantees about every steal candidate it builds
from state `s`: its `idxs` are exactly the victim's bound slots (in
`CORE_MAP` insertion order), the victim holds strictly more than the
floor, one fewer core still meets the floor, and estimated spare is at
least one. -/
def CandOK (s : CState) (c : Candidate) : Prop :=
  c.idxs = ownedSlots s c.agent c.job ∧
  MIN_CORES_PER_JOB < (c.idxs.length : ℤ) ∧
  MIN_CORES_PER_JOB ≤ (c.idxs.length : ℤ) - 1 ∧
  1 ≤ c.spare

theorem mem_candidatesForAgent (env : Env) (s : CState) (a_name : String)
    (c : Candidate) (h : c ∈ candidatesForAgent env s a_name) :
    c.agent = a_name ∧ CandOK s c := by
  unfold candidatesForAgent at h
  cases hst : env.status a_name with
  | none =>
      rw [hst] at h
      simp at h
  | some rows =>
      rw [hst] at h
      have H : ∀ (rws : List JobStatus) (acc : List Candidate),
          (∀ c' ∈ acc, c'.agent = a_name ∧ CandOK s c') →
          c ∈ rws.foldl (fun acc2 j =>
            if ((ownedSlots s a_name j.job).length : ℤ) ≤ MIN_CORES_PER_JOB then acc2
            else
              if 1 ≤ ((ownedSlots s a_name j.job).length : ℤ) -
                    estimate_used_cores j.cpu_percent ((ownedSlots s a_name j.job).length : ℤ) ∧
                  MIN_CORES_PER_JOB ≤ ((ownedSlots s a_name j.job).length : ℤ) - 1 then
                acc2 ++ [⟨((ownedSlots s a_name j.job).length : ℤ) -
                  estimate_used_cores j.cpu_percent ((ownedSlots s a_name j.job).length : ℤ),
                  a_name, j.job, ownedSlots s a_name j.job⟩]
              else acc2) acc →
          c.agent = a_name ∧ CandOK s c := by
        intro rws
        induction rws with
        | nil =>
            intro acc hacc hc
            exact hacc c hc
        | cons j js ihj =>
            intro acc hacc hc
            simp only [List.foldl_cons] at hc
            refine ihj _ ?_ hc
            intro c' hc'
            by_cases h1 : ((ownedSlots s a_name j.job).length : ℤ) ≤ MIN_CORES_PER_JOB
            · rw [if_pos h1] at hc'
              exact hacc c' hc'
            · rw [if_neg h1] at hc'
              by_cases h2 : 1 ≤ ((ownedSlots s a_name j.job).length : ℤ) -
                    estimate_used_cores j.cpu_percent ((ownedSlots s a_name j.job).length : ℤ) ∧
                  MIN_CORES_PER_JOB ≤ ((ownedSlots s a_name j.job).length : ℤ) - 1
              · rw [if_pos h2] at hc'
                rcases List.mem_append.mp hc' with hold | hnew
                · exact hacc c' hold
                · have hc'' : c' = ⟨((ownedSlots s a_name j.job).length : ℤ) -
                      estimate_used_cores j.cpu_percent ((ownedSlots s a_name j.job).length : ℤ),
                      a_name, j.job, ownedSlots s a_name j.job⟩ := by
                    simpa using hnew
                  subst hc''
                  exact ⟨rfl, rfl,
                    (by omega : MIN_CORES_PER_JOB <
                      ((ownedSlots s a_name j.job).length : ℤ)), h2.2, h2.1⟩
              · rw [if_neg h2] at hc'
                exact hacc c' hc'
      exact H rows [] (by simp) h

theorem mem_insertBySpare (c d : Candidate) (l : List Candidate) :
    d ∈ insertBySpare c l ↔ d = c ∨ d ∈ l := by
  induction l with
  | nil => simp [insertBySpare]
  | cons e rest ih =>
      unfold insertBySpare
      by_cases h : e.spare ≤ c.spare
      · rw [if_pos h]
        simp
      · rw [if_neg h]
        simp only [List.mem_cons, ih]
        tauto

theorem mem_sortBySpareDesc (l : List Candidate) (d : Candidate) :
    d ∈ sortBySpareDesc l ↔ d ∈ l := by
  unfold sortBySpareDesc
  induction l with
  | nil => simp
  | cons c rest ih =>
      simp only [List.foldr_cons, mem_insertBySpare, List.mem_cons, ih]

theorem mem_foldl_append {α β : Type} (f : β → List α) (l : List β) :
    ∀ (acc : List α) (c : α),
      c ∈ l.foldl (fun acc2 b => acc2 ++ f b) acc → c ∈ acc ∨ ∃ b ∈ l, c ∈ f b := by
  induction l with
  | nil =>
      intro acc c h
      exact Or.inl h
  | cons b rest ih =>
      intro acc c h
      simp only [List.foldl_cons] at h
      rcases ih (acc ++ f b) c h with h1 | ⟨b', hb', hc⟩
      · rcases List.mem_append.mp h1 with h2 | h2
        · exact Or.inl h2
        · exact Or.inr ⟨b, List.mem_cons_self _ _, h2⟩
      · exact Or.inr ⟨b', List.mem_cons_of_mem _ hb', hc⟩

/-- Every candidate the scheduler builds satisfies `CandOK`. -/
theorem mem_buildCandidates (env : Env) (s : CState) (c : Candidate)
    (h : c ∈ buildCandidates env s) : CandOK s c := by
  unfold buildCandidates at h
  rw [mem_sortBySpareDesc] at h
  rcases mem_foldl_append _ _ _ _ h with h1 | ⟨p, _, hc⟩
  · simp at h1
  · exact (mem_candidatesForAgent env s p.1 c hc).2

/-- Every planned steal comes from one candidate and takes exactly that
candidate's last listed slot. -/
theorem mem_stealSelect (st : Stolen) :
    ∀ (needRem : ℤ) (cands : List Candidate), st ∈ stealSelect needRem cands →
      ∃ c ∈ cands, st.src_agent = c.agent ∧ st.src_job = c.job ∧
        st.idxs = c.idxs.getLast?.toList := by
  intro needRem cands
  induction cands generalizing needRem with
  | nil =>
      intro h
      simp [stealSelect] at h
  | cons c rest ih =>
      intro h
      unfold stealSelect at h
      by_cases hn : 0 < needRem
      · rw [if_pos hn] at h
        rcases List.mem_cons.mp h with h1 | h1
        · exact ⟨c, List.mem_cons_self _ _, by rw [h1], by rw [h1], by rw [h1]⟩
        · rcases ih _ h1 with ⟨c', hc', h2⟩
          exact ⟨c', List.mem_cons_of_mem _ hc', h2⟩
      · rw [if_neg hn] at h
        simp at h

theorem mem_of_mem_getLast_toList {α : Type} {l : List α} {x : α}
    (h : x ∈ l.getLast?.toList) : x ∈ l := by
  cases hl : l.getLast? with
  | none =>
      rw [hl] at h
      simp at h
  | some a =>
      rw [hl] at h
      simp at h
      subst h
      exact List.mem_of_getLast?_eq_some hl

theorem keys_mem_dset {α β : Type} [DecidableEq α] (m : List (α × β)) (k x : α)
    (v : β) (h : x ∈ (dset m k v).map Prod.fst) :
    x ∈ m.map Prod.fst ∨ x = k := by
  induction m with
  | nil =>
      simp only [dset, List.map_cons, List.map_nil, List.mem_singleton] at h
      exact Or.inr h
  | cons p rest ih =>
      obtain ⟨a, b⟩ := p
      by_cases hak : a = k
      · have hd : dset ((a, b) :: rest) k v = (a, v) :: rest := by
          simp [dset, hak]
        rw [hd] at h
        simp only [List.map_cons, List.mem_cons] at h
        rcases h with h | h
        · exact Or.inl (by simp [h])
        · exact Or.inl (by simp [h])
      · have hd : dset ((a, b) :: rest) k v = (a, b) :: dset rest k v := by
          simp [dset, hak]
        rw [hd] at h
        simp only [List.map_cons, List.mem_cons] at h
        rcases h with h | h
        · exact Or.inl (by simp [h])
        · rcases ih h with h1 | h1
          · exact Or.inl (by simp [h1])
          · exact Or.inr h1

theorem keys_nodup_dset {α β : Type} [DecidableEq α] (m : List (α × β)) (k : α)
    (v : β) (hn : (m.map Prod.fst).Nodup) :
    ((dset m k v).map Prod.fst).Nodup := by
  induction m with
  | nil => simp [dset]
  | cons p rest ih =>
      obtain ⟨a, b⟩ := p
      simp only [List.map_cons, List.nodup_cons] at hn
      by_cases hak : a = k
      · have hd : dset ((a, b) :: rest) k v = (a, v) :: rest := by
          simp [dset, hak]
        rw [hd]
        simp only [List.map_cons, List.nodup_cons]
        exact hn
      · have hd : dset ((a, b) :: rest) k v = (a, b) :: dset rest k v := by
          simp [dset, hak]
        rw [hd]
        simp only [List.map_cons, List.nodup_cons]
        refine ⟨fun hmem => ?_, ih hn.2⟩
        rcases keys_mem_dset rest k a v hmem with h1 | h1
        · exact hn.1 h1
        · exact hak h1

theorem keys_nodup_foldl_dset (v : Option (String × String)) (l : List ℤ) :
    ∀ cm, (cm.map Prod.fst).Nodup →
      ((l.foldl (fun m g => dset m g v) cm).map Prod.fst).Nodup := by
  induction l with
  | nil =>
      intro cm hn
      simpa using hn
  | cons g gs ih =>
      intro cm hn
      simp only [List.foldl_cons]
      exact ih _ (keys_nodup_dset cm g v hn)

theorem keys_nodup_execSteals (env : Env) (stolen : List Stolen) :
    ∀ cm, (cm.map Prod.fst).Nodup →
      ((execSteals env cm stolen).map Prod.fst).Nodup := by
  unfold execSteals
  induction stolen with
  | nil =>
      intro cm hn
      simpa using hn
  | cons st rest ih =>
      intro cm hn
      simp only [List.foldl_cons]
      cases hst : env.status st.src_agent with
      | none =>
          simp only [hst]
          exact ih cm hn
      | some rows =>
          simp only [hst]
          by_cases hrel : env.releaseRaises st.src_agent st.src_job = true
          · rw [if_pos hrel]
            exact ih cm hn
          · rw [if_neg hrel]
            exact ih _ (keys_nodup_foldl_dset none st.idxs cm hn)

theorem vget_of_mem_freeSlotsOf (cm : List (ℤ × Option (String × String)))
    (info : AgentInfo) (g : ℤ) (h : g ∈ freeSlotsOf cm info) :
    vget cm g = none := by
  unfold freeSlotsOf at h
  have h2 := (List.mem_filter.mp h).2
  simpa [vget] using h2

theorem pyTake_sublist {α : Type} (n : ℤ) (l : List α) :
    (pyTake n l).Sublist l := by
  unfold pyTake
  split_ifs <;> exact List.take_sublist _ _

theorem freeSlotsOf_nodup (cm : List (ℤ × Option (String × String)))
    (info : AgentInfo) : (freeSlotsOf cm info).Nodup :=
  (freeSlotsOf_sorted cm info).nodup

/-- Binding previously free, distinct slots never lowers any key's
count. -/
theorem cmCount_foldl_dset_some (x : String × String) (picks : List ℤ) :
    ∀ cm, (∀ g ∈ picks, vget cm g = none) → picks.Nodup →
      ∀ aj, cmCount cm aj ≤
        cmCount (picks.foldl (fun m c => dset m c (some x)) cm) aj := by
  induction picks with
  | nil =>
      intro cm _ _ aj
      simp
  | cons g gs ih =>
      intro cm hfree hnd aj
      simp only [List.foldl_cons]
      have h1 : cmCount cm aj ≤ cmCount (dset cm g (some x)) aj :=
        cmCount_dset_of_free cm g (some x) aj (hfree g (List.mem_cons_self _ _))
      have hfree2 : ∀ g2 ∈ gs, vget (dset cm g (some x)) g2 = none := by
        intro g2 hg2
        rw [vget_dset]
        have hne : g ≠ g2 := fun he => (List.nodup_cons.mp hnd).1 (he ▸ hg2)
        rw [if_neg hne]
        exact hfree g2 (List.mem_cons_of_mem _ hg2)
      exact le_trans h1 (ih _ hfree2 (List.nodup_cons.mp hnd).2 aj)

/-- The planned steals of one scheduling attempt never push a key's
bound-core count below the floor, and leave keys at or below the floor
untouched. -/
theorem cmCount_execSteals_stealSelect (env : Env) (s : CState)
    (hn : CoreMapWF s) (needRem : ℤ) (aj : String × String) :
    min MIN_CORES_PER_JOB (cmCount s.core_map aj : ℤ) ≤
      (cmCount (execSteals env s.core_map
        (stealSelect needRem (buildCandidates env s))) aj : ℤ) := by
  by_cases hex : ∃ c ∈ buildCandidates env s, (c.agent, c.job) = aj
  · obtain ⟨c0, hc0mem, hc0key⟩ := hex
    have hok := mem_buildCandidates env s c0 hc0mem
    have hidx0 : c0.idxs = ownedSlots s c0.agent c0.job := hok.1
    have hcount : MIN_CORES_PER_JOB < (cmCount s.core_map aj : ℤ) := by
      have hlen := hok.2.1
      rw [hidx0] at hlen
      rw [← hc0key, ← ownedSlots_length s c0.agent c0.job]
      exact hlen
    obtain ⟨gval, hgval⟩ : ∃ gval, c0.idxs.getLast? = some gval := by
      cases hl : c0.idxs.getLast? with
      | none =>
          have hnil : c0.idxs = [] := List.getLast?_eq_none_iff.mp hl
          have hlen := hok.2.1
          rw [hnil] at hlen
          simp [MIN_CORES_PER_JOB] at hlen
      | some a => exact ⟨a, rfl⟩
    have hyp : ∀ st ∈ stealSelect needRem (buildCandidates env s),
        ∀ g ∈ st.idxs, vget s.core_map g = some aj → g = gval := by
      intro st hst g hg hv
      rcases mem_stealSelect st needRem _ hst with ⟨c, hcmem, _, _, hcidxs⟩
      have hcok := mem_buildCandidates env s c hcmem
      have hgin : g ∈ c.idxs := by
        rw [hcidxs] at hg
        exact mem_of_mem_getLast_toList hg
      have hvg : vget s.core_map g = some (c.agent, c.job) := by
        have hgin2 := hgin
        rw [hcok.1] at hgin2
        exact vget_of_mem_ownedSlots s hn hgin2
      have hkey : (c.agent, c.job) = aj := by
        rw [hv] at hvg
        exact (Option.some.inj hvg).symm
      have hcomp : c.agent = c0.agent ∧ c.job = c0.job := by
        have h2 : (c.agent, c.job) = (c0.agent, c0.job) := by
          rw [hkey, ← hc0key]
        exact Prod.mk.injEq _ _ _ _ ▸ h2
      have hsame : c.idxs = c0.idxs := by
        rw [hcok.1, hidx0, hcomp.1, hcomp.2]
      rw [hcidxs, hsame, hgval] at hg
      simpa using hg
    have hmain := (cmCount_execSteals_ge env aj gval _ s.core_map hyp).1
    simp only [MIN_CORES_PER_JOB] at hcount ⊢
    omega
  · have hyp : ∀ st ∈ stealSelect needRem (buildCandidates env s),
        ∀ g ∈ st.idxs, vget s.core_map g ≠ some aj := by
      intro st hst g hg hv
      rcases mem_stealSelect st needRem _ hst with ⟨c, hcmem, _, _, hcidxs⟩
      have hcok := mem_buildCandidates env s c hcmem
      have hgin : g ∈ c.idxs := by
        rw [hcidxs] at hg
        exact mem_of_mem_getLast_toList hg
      have hvg : vget s.core_map g = some (c.agent, c.job) := by
        rw [hcok.1] at hgin
        exact vget_of_mem_ownedSlots s hn hgin
      rw [hv] at hvg
      exact hex ⟨c, hcmem, (Option.some.inj hvg).symm⟩
    rw [cmCount_execSteals_eq env aj _ s.core_map hyp]
    exact min_le_right _ _

theorem allocLen_dset_append (al : List ((String × String) × List ℤ))
    (k key : String × String) (cores : List ℤ) :
    ((dget al key).getD []).length ≤
      ((dget (dset al k ((dget al k).getD [] ++ cores)) key).getD []).length := by
  rw [dget_dset]
  by_cases h : k = key
  · subst h
    simp
  · rw [if_neg h]

/-- `_assign_and_record` resolved on each bind outcome. -/
theorem assignAndRecord_spec (env : Env) (s : CState) (agent job : String)
    (pid : ℤ) (cores : List ℤ) :
    (env.allocOk agent job pid cores = true →
      assignAndRecord env s agent job pid cores =
        ({ s with
            core_map := cores.foldl (fun m c => dset m c (some (agent, job))) s.core_map,
            allocations := dset s.allocations (agent, job)
              ((dget s.allocations (agent, job)).getD [] ++ cores),
            job_request := dsetdefault s.job_request (agent, job) (cores.length : ℤ) },
          true)) ∧
    (env.allocOk agent job pid cores = false →
      assignAndRecord env s agent job pid cores = (s, false)) := by
  constructor
  · intro h
    simp [assignAndRecord, h]
  · intro h
    simp [assignAndRecord, h]

/-- The reported success flag of `_assign_and_record` is exactly the
bind call's outcome. -/
theorem assignAndRecord_snd (env : Env) (s : CState) (agent job : String)
    (pid : ℤ) (cores : List ℤ) :
    (assignAndRecord env s agent job pid cores).2 =
      env.allocOk agent job pid cores := by
  cases h2 : env.allocOk agent job pid cores
  · simp [assignAndRecord, h2]
  · simp [assignAndRecord, h2]

/-- One steal phase preserves unique keys, never drops a key's
bound-core count below the floor (nor below its current value when
already at or under the floor), and never shrinks an Allocation. -/
theorem stealPhase_spec (env : Env) (s : CState) (req : PendingReq)
    (info : AgentInfo) (hn : CoreMapWF s) :
    CoreMapWF (stealPhase env s req info) ∧
    (∀ aj : String × String,
      min MIN_CORES_PER_JOB (cmCount s.core_map aj : ℤ) ≤
        (cmCount (stealPhase env s req info).core_map aj : ℤ)) ∧
    (∀ key : String × String,
      ((dget s.allocations key).getD []).length ≤
        ((dget (stealPhase env s req info).allocations key).getD []).length) := by
  unfold stealPhase
  dsimp only
  split_ifs with h1 h2 h3
  · -- steals committed, rebind length matches, bind succeeded
    rw [assignAndRecord_snd] at h3
    rw [(assignAndRecord_spec env _ req.vm req.job req.pid _).1 h3]
    dsimp only
    refine ⟨?_, fun aj => ?_, fun key => ?_⟩
    · exact keys_nodup_foldl_dset _ _ _
        (keys_nodup_execSteals env _ s.core_map hn)
    · have hmin := cmCount_execSteals_stealSelect env s hn
        (req.need - ((freeSlotsOf s.core_map info).length : ℤ)) aj
      have hfree : ∀ g ∈ pyTake req.need (freeSlotsOf (execSteals env s.core_map
            (stealSelect (req.need - ((freeSlotsOf s.core_map info).length : ℤ))
              (buildCandidates env s))) info),
          vget (execSteals env s.core_map
            (stealSelect (req.need - ((freeSlotsOf s.core_map info).length : ℤ))
              (buildCandidates env s))) g = none := fun g hg =>
        vget_of_mem_freeSlotsOf _ info g ((pyTake_sublist _ _).subset hg)
      have hnd := List.Nodup.sublist (pyTake_sublist req.need _)
        (freeSlotsOf_nodup (execSteals env s.core_map
          (stealSelect (req.need - ((freeSlotsOf s.core_map info).length : ℤ))
            (buildCandidates env s))) info)
      have hbind := cmCount_foldl_dset_some (req.vm, req.job) _ _ hfree hnd aj
      calc min MIN_CORES_PER_JOB (cmCount s.core_map aj : ℤ)
          ≤ _ := hmin
        _ ≤ _ := by exact_mod_cast hbind
    · exact allocLen_dset_append _ _ _ _
  · -- steals committed, rebind length matches, bind failed
    rw [assignAndRecord_snd] at h3
    rw [(assignAndRecord_spec env _ req.vm req.job req.pid _).2
      (by simpa using h3)]
    dsimp only
    refine ⟨?_, fun aj => ?_, fun key => le_refl _⟩
    · exact keys_nodup_execSteals env _ s.core_map hn
    · exact cmCount_execSteals_stealSelect env s hn _ aj
  · -- steals committed, rebind length mismatch
    refine ⟨?_, fun aj => ?_, fun key => le_refl _⟩
    · exact keys_nodup_execSteals env _ s.core_map hn
    · exact cmCount_execSteals_stealSelect env s hn _ aj
  · -- nothing assembled: state untouched
    exact ⟨hn, fun aj => min_le_right _ _, fun key => le_refl _⟩

/-- One request-processing step of the scheduling pass preserves unique
keys, the floor property, and Allocation sizes. -/
theorem processOne_spec (env : Env) (s : CState) (req : PendingReq)
    (hn : CoreMapWF s) :
    CoreMapWF (processOne env s req) ∧
    (∀ aj : String × String,
      min MIN_CORES_PER_JOB (cmCount s.core_map aj : ℤ) ≤
        (cmCount (processOne env s req).core_map aj : ℤ)) ∧
    (∀ key : String × String,
      ((dget s.allocations key).getD []).length ≤
        ((dget (processOne env s req).allocations key).getD []).length) := by
  unfold processOne
  cases hag : dget s.agents req.vm with
  | none =>
      dsimp only
      exact ⟨hn, fun aj => min_le_right _ _, fun key => le_refl _⟩
  | some info =>
      dsimp only
      by_cases hdir : req.need + RESERVE_BUFFER ≤
          ((freeSlotsOf s.core_map info).length : ℤ)
      · rw [if_pos hdir]
        by_cases hok : (assignAndRecord env s req.vm req.job req.pid
            (pyTake req.need (freeSlotsOf s.core_map info))).2 = true
        · rw [if_pos hok]
          rw [assignAndRecord_snd] at hok
          rw [(assignAndRecord_spec env s req.vm req.job req.pid _).1 hok]
          dsimp only
          refine ⟨?_, fun aj => ?_, fun key => ?_⟩
          · exact keys_nodup_foldl_dset _ _ s.core_map hn
          · have hfree : ∀ g ∈ pyTake req.need (freeSlotsOf s.core_map info),
                vget s.core_map g = none := fun g hg =>
              vget_of_mem_freeSlotsOf s.core_map info g
                ((pyTake_sublist _ _).subset hg)
            have hnd := List.Nodup.sublist (pyTake_sublist req.need _)
              (freeSlotsOf_nodup s.core_map info)
            have hbind := cmCount_foldl_dset_some (req.vm, req.job) _
              s.core_map hfree hnd aj
            calc min MIN_CORES_PER_JOB (cmCount s.core_map aj : ℤ)
                ≤ (cmCount s.core_map aj : ℤ) := min_le_right _ _
              _ ≤ _ := by exact_mod_cast hbind
          · exact allocLen_dset_append _ _ _ _
        · rw [if_neg hok]
          dsimp only
          exact stealPhase_spec env s req info hn
      · rw [if_neg hdir]
        dsimp only
        exact stealPhase_spec env s req info hn

/-- The whole pass: folding `processOne` over the pending snapshot. -/
theorem schedPass_fold_spec (env : Env) (reqs : List PendingReq) :
    ∀ s : CState, CoreMapWF s →
      CoreMapWF (reqs.foldl (fun st req => processOne env st req) s) ∧
      (∀ aj : String × String,
        min MIN_CORES_PER_JOB (cmCount s.core_map aj : ℤ) ≤
          (cmCount (reqs.foldl (fun st req => processOne env st req) s).core_map aj : ℤ)) ∧
      (∀ key : String × String,
        ((dget s.allocations key).getD []).length ≤
          ((dget (reqs.foldl (fun st req => processOne env st req) s).allocations
            key).getD []).length) := by
  induction reqs with
  | nil =>
      intro s hn
      simp only [List.foldl_nil]
      exact ⟨hn, fun aj => min_le_right _ _, fun key => le_refl _⟩
  | cons r rs ih =>
      intro s hn
      simp only [List.foldl_cons]
      have h1 := processOne_spec env s r hn
      have h2 := ih (processOne env s r) h1.1
      refine ⟨h2.1, fun aj => ?_, fun key => le_trans (h1.2.2 key) (h2.2.2 key)⟩
      exact le_trans (le_min (min_le_left _ _) (h1.2.1 aj)) (h2.2.1 aj)

/-- C5 (amended): a scheduling pass never reduces any job's set of
bound cores below `MIN_CORES_PER_JOB` (and never shrinks an Allocation
entry at all); a job is selected as a steal victim only when its current
bound-core list exceeds the floor, one fewer core still meets the floor,
and its estimated spare is at least 1; and each victim loses at most one
core per attempt — the bound slot listed last in `CORE_MAP` insertion
order (its highest-index bound slot whenever its slots were registered
in ascending index order).  `CoreMapWF` (unique `CORE_MAP` keys) holds
in every state a Python dict can represent. -/
theorem steal_floor_spec (env : Env) (s : CState) (hn : CoreMapWF s) :
    (∀ a j : String,
      min MIN_CORES_PER_JOB ((ownedSlots s a j).length : ℤ) ≤
        ((ownedSlots (schedPass env s) a j).length : ℤ)) ∧
    (∀ key : String × String,
      ((dget s.allocations key).getD []).length ≤
        ((dget (schedPass env s).allocations key).getD []).length) ∧
    (∀ c ∈ buildCandidates env s, CandOK s c) ∧
    (∀ (needRem : ℤ) (cands : List Candidate) (st : Stolen),
      st ∈ stealSelect needRem cands →
        st.idxs.length ≤ 1 ∧
        ∃ c ∈ cands, st.src_agent = c.agent ∧ st.src_job = c.job ∧
          st.idxs = c.idxs.getLast?.toList) := by
  have h := schedPass_fold_spec env s.pending s hn
  refine ⟨fun a j => ?_, h.2.2, fun c hc => mem_buildCandidates env s c hc, ?_⟩
  · rw [ownedSlots_length, ownedSlots_length]
    exact h.2.1 (a, j)
  · intro needRem cands st hst
    rcases mem_stealSelect st needRem cands hst with ⟨c, hcmem, hca, hcj, hcidxs⟩
    constructor
    · rw [hcidxs]
      cases c.idxs.getLast? <;> simp
    · exact ⟨c, hcmem, hca, hcj, hcidxs⟩

/-- Witness for C5 (amended) at the spec's steal scenario: during the
pass that steals one core from `train` (holding 4 cores at 50% CPU) for
`infer`, `train` never drops below the floor. -/
theorem steal_floor_spec_witness :
    (sA4.core_map.map Prod.fst).Nodup ∧
    min MIN_CORES_PER_JOB ((ownedSlots sA4 "vm1" "train").length : ℤ) ≤
      ((ownedSlots (schedPass envSteal50 sA4) "vm1" "train").length : ℤ) :=
  ⟨by decide,
   (steal_floor_spec envSteal50 sA4
     (by decide : (sA4.core_map.map Prod.fst).Nodup)).1 "vm1" "train"⟩

end HotPlug


